import Mathlib

/-!
Verification of the Ancestry-to-Geography Path Resolver of the gaia_dashboard
backend (src/backend/src/main.rs).

The SQL queries and the Rust grouping loops of the three core handlers
(get_origin_paths, get_individual_origin_paths, get_average_flux) are embedded
shallowly: database tables become lists of records, SQL clauses become list
operations, the recursive CTE becomes a bounded fixpoint iteration on finite
node sets, and the f64 columns are modelled by exact rationals.
-/

/-! ## Data model

Record types mirror the Rust structs in main.rs; for the tables that main.rs
reads only through SQL (nodes, edges, individuals) the record carries exactly
the columns the queries touch. -/

/-- Row of the geo_arg table (struct GeoArg in main.rs). The f64 time column is
modelled as an exact rational. -/
structure GeoArg where
  edge_id : Int
  state_id : Int
  time : ℚ
deriving DecidableEq

/-- Result shape of the two path queries (struct GeoArgPath in main.rs). -/
structure GeoArgPath where
  edge_id : Int
  entries : List GeoArg
deriving DecidableEq

/-- Row of the flux table (struct Flux in main.rs). -/
structure Flux where
  id : Int
  source_state_id : Int
  target_state_id : Int
  time : ℚ
  migration_rate : ℚ
deriving DecidableEq

/-- Result shape of get_average_flux (struct AverageFlux in main.rs). -/
structure AverageFlux where
  source_state_id : Int
  target_state_id : Int
  average_migration_rate : ℚ
deriving DecidableEq

/-- Row of the nodes table; the recursive CTE in get_individual_origin_paths
reads only the id column. -/
structure Node where
  id : Int
deriving DecidableEq

/-- Row of the edges table; the queries read id, parent and child. -/
structure Edge where
  id : Int
  parent : Int
  child : Int
deriving DecidableEq

/-- Row of the individuals table; the query in get_individual_origin_paths
reads only id and the nodes array. -/
structure Individual where
  id : Int
  nodes : List Int
deriving DecidableEq

/-! ## SELECT DISTINCT

A deterministic model of SQL SELECT DISTINCT over a list of rows: keep the
first occurrence of each value, in arrival order. -/

/-- One step of the distinct scan: append the element unless already seen. -/
def dfStep {α : Type} [DecidableEq α] (acc : List α) (x : α) : List α :=
  if x ∈ acc then acc else acc ++ [x]

/-- Distinct values of a list, first occurrences kept, order preserved. -/
def distinctFirst {α : Type} [DecidableEq α] (l : List α) : List α :=
  l.foldl dfStep []

/-! ## Orderings used by the ORDER BY clauses -/

/-- ORDER BY edge_id, time on geo_arg rows. -/
def lexLe (a b : GeoArg) : Prop :=
  a.edge_id < b.edge_id ∨ (a.edge_id = b.edge_id ∧ a.time ≤ b.time)

instance (a b : GeoArg) : Decidable (lexLe a b) :=
  inferInstanceAs (Decidable (a.edge_id < b.edge_id ∨ (a.edge_id = b.edge_id ∧ a.time ≤ b.time)))

instance : IsTrans GeoArg lexLe := by
  constructor
  intro a b c hab hbc
  rcases hab with h1 | ⟨h1, h1t⟩ <;> rcases hbc with h2 | ⟨h2, h2t⟩
  · exact Or.inl (lt_trans h1 h2)
  · exact Or.inl (h2 ▸ h1)
  · exact Or.inl (h1 ▸ h2)
  · exact Or.inr ⟨h1.trans h2, le_trans h1t h2t⟩

instance : IsTotal GeoArg lexLe := by
  constructor
  intro a b
  rcases lt_trichotomy a.edge_id b.edge_id with h | h | h
  · exact Or.inl (Or.inl h)
  · rcases le_total a.time b.time with ht | ht
    · exact Or.inl (Or.inr ⟨h, ht⟩)
    · exact Or.inr (Or.inr ⟨h.symm, ht⟩)
  · exact Or.inr (Or.inl h)

/-- ORDER BY source_state_id, target_state_id on flux aggregation keys. -/
def keyLe (a b : Int × Int) : Prop :=
  a.1 < b.1 ∨ (a.1 = b.1 ∧ a.2 ≤ b.2)

instance (a b : Int × Int) : Decidable (keyLe a b) :=
  inferInstanceAs (Decidable (a.1 < b.1 ∨ (a.1 = b.1 ∧ a.2 ≤ b.2)))

instance : IsTrans (Int × Int) keyLe := by
  constructor
  intro a b c hab hbc
  rcases hab with h1 | ⟨h1, h1t⟩ <;> rcases hbc with h2 | ⟨h2, h2t⟩
  · exact Or.inl (lt_trans h1 h2)
  · exact Or.inl (h2 ▸ h1)
  · exact Or.inl (h1 ▸ h2)
  · exact Or.inr ⟨h1.trans h2, le_trans h1t h2t⟩

instance : IsTotal (Int × Int) keyLe := by
  constructor
  intro a b
  rcases lt_trichotomy a.1 b.1 with h | h | h
  · exact Or.inl (Or.inl h)
  · rcases le_total a.2 b.2 with ht | ht
    · exact Or.inl (Or.inr ⟨h, ht⟩)
    · exact Or.inr (Or.inr ⟨h.symm, ht⟩)
  · exact Or.inr (Or.inl h)

/-- Strict version of keyLe, for stating that the aggregation output has
strictly ascending keys. -/
def keyLt (a b : Int × Int) : Prop :=
  a.1 < b.1 ∨ (a.1 = b.1 ∧ a.2 < b.2)

/-! ## Grouping loop

Embedding of the Rust loop shared by both path handlers: walk the fetched rows
once, keeping current_edge_id and current_entries, flushing a GeoArgPath each
time the edge id changes, and flushing the final accumulator at the end. -/

/-- One iteration of the Rust for-loop, on the state
(grouped_paths, current_edge_id, current_entries). -/
def groupStep (st : List GeoArgPath × Option Int × List GeoArg) (entry : GeoArg) :
    List GeoArgPath × Option Int × List GeoArg :=
  match st with
  | (grouped, some eid, cur) =>
      if eid ≠ entry.edge_id then
        (grouped ++ [⟨eid, cur⟩], some entry.edge_id, [entry])
      else
        (grouped, some eid, cur ++ [entry])
  | (grouped, none, cur) => (grouped, some entry.edge_id, cur ++ [entry])

/-- The final flush after the loop (the trailing if let Some in main.rs). -/
def flushPaths (st : List GeoArgPath × Option Int × List GeoArg) : List GeoArgPath :=
  match st with
  | (grouped, some eid, cur) => grouped ++ [⟨eid, cur⟩]
  | (grouped, none, _) => grouped

/-- The whole grouping pass of main.rs lines 239 to 265 and 352 to 380. -/
def groupPaths (rows : List GeoArg) : List GeoArgPath :=
  flushPaths (rows.foldl groupStep ([], none, []))

/-- Recursive reformulation of the loop, used for proofs: the state after the
first row is always (some eid, nonempty accumulator). -/
def groupRec : Int → List GeoArg → List GeoArg → List GeoArgPath
  | eid, acc, [] => [⟨eid, acc⟩]
  | eid, acc, e :: rest =>
      if eid ≠ e.edge_id then ⟨eid, acc⟩ :: groupRec e.edge_id [e] rest
      else groupRec eid (acc ++ [e]) rest

/-! ## The origin-path query (get_origin_paths, main.rs lines 209 to 266)

The CTE relevant_transitions is SELECT DISTINCT edge_id FROM geo_arg WHERE
state_id equals the parameter, LIMIT 1000; the outer query fetches every
geo_arg row of those edges ordered by (edge_id, time). -/

/-- The relevant_transitions CTE: distinct edge ids having any attachment at
the queried cell, truncated to 1000. -/
def originEdges (db : List GeoArg) (c : Int) : List Int :=
  (distinctFirst ((db.filter (fun g => g.state_id = c)).map GeoArg.edge_id)).take 1000

/-- The joined, ordered row set the handler fetches. -/
def originRows (db : List GeoArg) (c : Int) : List GeoArg :=
  List.insertionSort lexLe (db.filter (fun g => g.edge_id ∈ originEdges db c))

/-- The full get_origin_paths handler on a geo_arg table. -/
def get_origin_paths (db : List GeoArg) (c : Int) : List GeoArgPath :=
  groupPaths (originRows db c)

/-! ## The flux aggregation (get_average_flux, main.rs lines 268 to 289)

GROUP BY source_state_id, target_state_id with AVG(migration_rate), HAVING the
average strictly positive, ORDER BY source_state_id, target_state_id. -/

/-- The GROUP BY key of a flux row. -/
def fluxKey (f : Flux) : Int × Int := (f.source_state_id, f.target_state_id)

/-- All migration rates recorded for one (source, target) pair. -/
def ratesFor (fs : List Flux) (k : Int × Int) : List ℚ :=
  (fs.filter (fun f => fluxKey f = k)).map Flux.migration_rate

/-- SQL AVG over the rates of one pair: sum divided by count. -/
def avgRate (fs : List Flux) (k : Int × Int) : ℚ :=
  (ratesFor fs k).sum / ((ratesFor fs k).length : ℚ)

/-- The full get_average_flux handler on a flux table. -/
def get_average_flux (fs : List Flux) : List AverageFlux :=
  (List.insertionSort keyLe
      ((distinctFirst (fs.map fluxKey)).filter (fun k => 0 < avgRate fs k))).map
    (fun k => ⟨k.1, k.2, avgRate fs k⟩)

/-- The (source, target) pair of an output tuple. -/
def averageFluxKey (af : AverageFlux) : Int × Int :=
  (af.source_state_id, af.target_state_id)

/-! ## The ancestor closure (get_individual_origin_paths, main.rs lines 292 to 381)

The recursive CTE node_tree starts from the node ids listed in the nodes array
of the individual (intersected with the nodes table) and repeatedly adds the
parent of every edge whose child is already in the set; UNION deduplicates, so
the CTE computes the least fixpoint. Here the fixpoint is reached by iterating
the step function es.length + 1 times over finite sets, which provably
suffices. -/

/-- UNNEST(nodes) of the individuals rows matching the queried id. -/
def unnestNodes (inds : List Individual) (iid : Int) : List Int :=
  ((inds.filter (fun i => i.id = iid)).map Individual.nodes).flatten

/-- Base case of the CTE: the node ids of the individual that exist in the
nodes table. -/
def seedNodes (nt : List Node) (inds : List Individual) (iid : Int) : Finset Int :=
  ((nt.filter (fun n => n.id ∈ unnestNodes inds iid)).map Node.id).toFinset

/-- One unfolding of the recursive term: add the parent of every edge whose
child is in the current set. -/
def treeStep (es : List Edge) (s : Finset Int) : Finset Int :=
  s ∪ ((es.filter (fun e => e.child ∈ s)).map Edge.parent).toFinset

/-- The node_tree CTE: least fixpoint of treeStep above the seeds, reached
within es.length + 1 iterations. -/
def nodeTree (es : List Edge) (seeds : Finset Int) : Finset Int :=
  (treeStep es)^[es.length + 1] seeds

/-- One child-to-parent step along an edge of the table. -/
def parentStep (es : List Edge) (a b : Int) : Prop :=
  ∃ e ∈ es, e.child = a ∧ e.parent = b

/-- A node is in the ancestor closure of the seed set when some seed reaches it
by repeatedly following child-to-parent links. -/
def reachesAncestor (es : List Edge) (seeds : Finset Int) (x : Int) : Prop :=
  ∃ s ∈ seeds, Relation.ReflTransGen (parentStep es) s x

/-- The final SELECT DISTINCT of the CTE query: ids of the edges whose child or
parent lies in node_tree. -/
def ancestorEdgeIds (nt : List Node) (es : List Edge) (inds : List Individual)
    (iid : Int) : Finset Int :=
  ((es.filter (fun e =>
      e.child ∈ nodeTree es (seedNodes nt inds iid) ∨
      e.parent ∈ nodeTree es (seedNodes nt inds iid))).map Edge.id).toFinset

/-- The second query of the handler: all geo_arg rows of the resolved edges,
ordered by (edge_id, time). -/
def attachmentsForEdges (db : List GeoArg) (eids : Finset Int) : List GeoArg :=
  List.insertionSort lexLe (db.filter (fun g => g.edge_id ∈ eids))

/-- The full get_individual_origin_paths handler, including the early return
on an empty edge set (main.rs lines 330 to 332). -/
def get_individual_origin_paths (nt : List Node) (es : List Edge)
    (inds : List Individual) (db : List GeoArg) (iid : Int) : List GeoArgPath :=
  if ancestorEdgeIds nt es inds iid = ∅ then []
  else groupPaths (attachmentsForEdges db (ancestorEdgeIds nt es inds iid))

/-! ## The store failure layer

Every handler in main.rs ends its fetch with .await.unwrap_or_default(), so a
failed query yields the empty row set. The fetch outcome is modelled as an
Except value. -/

/-- The error cases of a failed store round trip. -/
inductive SqlxError where
  | connectionFailed : SqlxError
  | queryTimeout : SqlxError
deriving DecidableEq

/-- Vec::unwrap_or_default on a fetch_all outcome. -/
def unwrap_or_default {α : Type} (r : Except SqlxError (List α)) : List α :=
  match r with
  | .ok rows => rows
  | .error _ => []

/-- get_origin_paths as a function of the fetch outcome. -/
def origin_paths_handler (fetched : Except SqlxError (List GeoArg)) : List GeoArgPath :=
  groupPaths (unwrap_or_default fetched)

/-- get_individual_origin_paths as a function of its two fetch outcomes; the
second query is only consulted when the first yields a nonempty edge list. -/
def individual_paths_handler (edgesFetched : Except SqlxError (List Int))
    (geoFetched : Except SqlxError (List GeoArg)) : List GeoArgPath :=
  if unwrap_or_default edgesFetched = [] then []
  else groupPaths (unwrap_or_default geoFetched)

/-- get_average_flux as a function of the fetch outcome. -/
def average_flux_handler (fetched : Except SqlxError (List AverageFlux)) : List AverageFlux :=
  unwrap_or_default fetched

/-! ## Spec-side definitions

The specification describes origin queries and ancestor closures differently
from the code at two points; the following definitions follow the words of the
spec so the two can be compared. -/

/-- Time order on geo_arg rows, for picking the minimum-time attachment. -/
def timeLe (a b : GeoArg) : Prop := a.time ≤ b.time

instance (a b : GeoArg) : Decidable (timeLe a b) :=
  inferInstanceAs (Decidable (a.time ≤ b.time))

/-- Modelled from the spec: the attachment of an edge with minimum time, ties
broken deterministically (first row in time order). -/
def minTimeAttachment (db : List GeoArg) (e : Int) : Option GeoArg :=
  (List.insertionSort timeLe (db.filter (fun g => g.edge_id = e))).head?

/-- Modelled from the spec: EdgesWithEarliestCell, the edges whose
minimum-time attachment sits at the queried cell. -/
def edgesWithEarliestCell (db : List GeoArg) (c : Int) : List Int :=
  (distinctFirst (db.map GeoArg.edge_id)).filter
    (fun e => (minTimeAttachment db e).any (fun g => g.state_id = c))

/-- Modelled from the spec: an edge lies on a parent-path from node n when the
walk from n along child-to-parent links reaches the child endpoint of the edge
and then crosses it; in an acyclic finite graph such a walk always extends to
a root, so this reachability condition is the on-a-parent-path-to-a-root
condition of the spec. -/
def onParentPathFrom (es : List Edge) (n : Int) (e : Edge) : Prop :=
  e ∈ es ∧ Relation.ReflTransGen (parentStep es) n e.child

/-- A pedigree edge table is acyclic when no edge closes a cycle, that is no
walk from the parent of an edge comes back to its child. -/
def acyclicEdges (es : List Edge) : Prop :=
  ∀ e ∈ es, ¬ Relation.ReflTransGen (parentStep es) e.parent e.child

/-! ## Concrete tables used by counterexamples and witnesses -/

/-- Edge 1 has its earliest attachment at cell 2 and a later one at cell 5. -/
def c1db : List GeoArg := [⟨1, 2, 0⟩, ⟨1, 5, 1⟩]

/-- Two edges with attachments already in (edge_id, time) order. -/
def c2rows : List GeoArg := [⟨1, 5, 0⟩, ⟨1, 6, 1⟩, ⟨2, 7, 0⟩]

/-- Nodes 1, 2, 3; node 2 is the parent of node 1 (edge 100) and of node 3
(edge 101); individual 7 owns node 1. -/
def c3nodes : List Node := [⟨1⟩, ⟨2⟩, ⟨3⟩]

/-- Edge table of the sibling-edge counterexample. -/
def c3edges : List Edge := [⟨100, 2, 1⟩, ⟨101, 2, 3⟩]

/-- Individual table of the sibling-edge counterexample. -/
def c3inds : List Individual := [⟨7, [1]⟩]

/-- A two-node cycle: node 2 is the parent of node 1 and node 1 the parent of
node 2. -/
def c6cyc : List Edge := [⟨1, 2, 1⟩, ⟨2, 1, 2⟩]

/-- Three time steps of flux for the single pair (1, 2), rates 2, 4 and 6. -/
def c5flux : List Flux := [⟨0, 1, 2, 0, 2⟩, ⟨1, 1, 2, 1, 4⟩, ⟨2, 1, 2, 2, 6⟩]

/-- An edge with two attachments sharing the same time. -/
def c9db : List GeoArg := [⟨1, 5, 0⟩, ⟨1, 6, 0⟩]

/-- Unsorted rows: edge 2, then edge 1, then edge 2 again. -/
def c10rows : List GeoArg := [⟨2, 7, 1⟩, ⟨1, 5, 0⟩, ⟨2, 8, 0⟩]

/-- A geo_arg row attaching edge i to cell 5 at time 0. -/
def geoRow (i : ℕ) : GeoArg := ⟨(i : Int), 5, 0⟩

/-- 1001 distinct edges attached to cell 5: one more than the LIMIT. -/
def bigDb : List GeoArg := (List.range 1001).map geoRow

/-- The first 1000 of those edges. -/
def smallDb : List GeoArg := (List.range 1000).map geoRow

/-! ## Lemmas about distinctFirst -/

theorem mem_foldl_dfStep {α : Type} [DecidableEq α] (l : List α) :
    ∀ (acc : List α) (x : α), x ∈ l.foldl dfStep acc ↔ x ∈ acc ∨ x ∈ l := by
  induction l with
  | nil => intro acc x; simp
  | cons a t ih =>
    intro acc x
    simp only [List.foldl_cons]
    by_cases h : a ∈ acc
    · rw [show dfStep acc a = acc from if_pos h, ih]
      constructor
      · rintro (h1 | h1)
        · exact Or.inl h1
        · exact Or.inr (List.mem_cons_of_mem a h1)
      · rintro (h1 | h1)
        · exact Or.inl h1
        · rcases List.mem_cons.mp h1 with h2 | h2
          · exact Or.inl (h2 ▸ h)
          · exact Or.inr h2
    · rw [show dfStep acc a = acc ++ [a] from if_neg h, ih]
      simp only [List.mem_append, List.mem_singleton, List.mem_cons]
      tauto

theorem mem_distinctFirst {α : Type} [DecidableEq α] (x : α) (l : List α) :
    x ∈ distinctFirst l ↔ x ∈ l := by
  rw [distinctFirst, mem_foldl_dfStep]
  simp

theorem foldl_dfStep_eq_append {α : Type} [DecidableEq α] (l : List α) :
    ∀ acc : List α, (acc ++ l).Nodup → l.foldl dfStep acc = acc ++ l := by
  induction l with
  | nil => intro acc _; simp
  | cons a t ih =>
    intro acc h
    have hna : a ∉ acc := by
      intro ha
      rcases List.nodup_append.mp h with ⟨_, _, hdisj⟩
      exact hdisj ha (List.mem_cons_self a t)
    rw [List.append_cons] at h
    simp only [List.foldl_cons]
    rw [show dfStep acc a = acc ++ [a] from if_neg hna, ih (acc ++ [a]) h]
    simp

theorem distinctFirst_eq_self {α : Type} [DecidableEq α] {l : List α} (h : l.Nodup) :
    distinctFirst l = l := by
  rw [distinctFirst, foldl_dfStep_eq_append l [] (by simpa using h)]
  simp

theorem foldl_dfStep_nodup {α : Type} [DecidableEq α] (l : List α) :
    ∀ acc : List α, acc.Nodup → (l.foldl dfStep acc).Nodup := by
  induction l with
  | nil => intro acc h; simpa using h
  | cons a t ih =>
    intro acc h
    simp only [List.foldl_cons]
    by_cases ha : a ∈ acc
    · rw [show dfStep acc a = acc from if_pos ha]; exact ih acc h
    · rw [show dfStep acc a = acc ++ [a] from if_neg ha]
      refine ih (acc ++ [a]) (List.nodup_append.mpr ⟨h, List.nodup_singleton a, ?_⟩)
      intro x hx hx1
      exact ha ((List.mem_singleton.mp hx1) ▸ hx)

theorem distinctFirst_nodup {α : Type} [DecidableEq α] (l : List α) :
    (distinctFirst l).Nodup :=
  foldl_dfStep_nodup l [] List.nodup_nil

/-! ## Lemmas about the grouping loop -/

theorem foldl_groupStep (l : List GeoArg) :
    ∀ (g : List GeoArgPath) (eid : Int) (acc : List GeoArg),
      flushPaths (l.foldl groupStep (g, some eid, acc)) = g ++ groupRec eid acc l := by
  induction l with
  | nil => intro g eid acc; rfl
  | cons e rest ih =>
    intro g eid acc
    by_cases h : eid = e.edge_id
    · have hstep : groupStep (g, some eid, acc) e = (g, some eid, acc ++ [e]) := by
        simp [groupStep, h]
      rw [List.foldl_cons, hstep, ih, groupRec, if_neg (by simpa using h)]
    · have hstep : groupStep (g, some eid, acc) e = (g ++ [⟨eid, acc⟩], some e.edge_id, [e]) := by
        simp [groupStep, h]
      rw [List.foldl_cons, hstep, ih, groupRec, if_pos (by simpa using h)]
      simp

theorem groupPaths_nil : groupPaths [] = [] := rfl

theorem groupPaths_cons (e : GeoArg) (l : List GeoArg) :
    groupPaths (e :: l) = groupRec e.edge_id [e] l := by
  have hstep : groupStep ([], none, []) e = ([], some e.edge_id, [e]) := rfl
  rw [groupPaths, List.foldl_cons, hstep, foldl_groupStep]
  simp

theorem groupRec_mem_edge (l : List GeoArg) :
    ∀ (eid x : Int) (acc : List GeoArg),
      x ∈ (groupRec eid acc l).map GeoArgPath.edge_id ↔ x = eid ∨ x ∈ l.map GeoArg.edge_id := by
  induction l with
  | nil => intro eid x acc; simp [groupRec]
  | cons e rest ih =>
    intro eid x acc
    by_cases h : eid = e.edge_id
    · rw [groupRec, if_neg (by simpa using h), ih]
      simp only [List.map_cons, List.mem_cons]
      constructor
      · rintro (h1 | h1)
        · exact Or.inl h1
        · exact Or.inr (Or.inr h1)
      · rintro (h1 | h1 | h1)
        · exact Or.inl h1
        · exact Or.inl (h ▸ h1)
        · exact Or.inr h1
    · rw [groupRec, if_pos (by simpa using h)]
      simp only [List.map_cons, List.mem_cons, ih]

theorem groupRec_flatten (l : List GeoArg) :
    ∀ (eid : Int) (acc : List GeoArg),
      ((groupRec eid acc l).map GeoArgPath.entries).flatten = acc ++ l := by
  induction l with
  | nil => intro eid acc; simp [groupRec]
  | cons e rest ih =>
    intro eid acc
    by_cases h : eid = e.edge_id
    · rw [groupRec, if_neg (by simpa using h), ih]
      simp
    · rw [groupRec, if_pos (by simpa using h)]
      simp only [List.map_cons, List.flatten_cons, ih]
      simp

theorem groupRec_head (l : List GeoArg) :
    ∀ (eid : Int) (acc : List GeoArg),
      ((groupRec eid acc l).map GeoArgPath.edge_id).head? = some eid := by
  induction l with
  | nil => intro eid acc; rfl
  | cons e rest ih =>
    intro eid acc
    by_cases h : eid = e.edge_id
    · rw [groupRec, if_neg (by simpa using h), ih]
    · rw [groupRec, if_pos (by simpa using h)]
      rfl

theorem chain_time_of_chain_lex (acc : List GeoArg) (eid : Int)
    (hid : ∀ a ∈ acc, a.edge_id = eid) (h : List.Chain' lexLe acc) :
    List.Chain' (fun a b : GeoArg => a.time ≤ b.time) acc := by
  have hp : acc.Pairwise lexLe := List.chain'_iff_pairwise.mp h
  have hpt : acc.Pairwise (fun a b : GeoArg => a.time ≤ b.time) := by
    refine hp.imp_of_mem ?_
    intro a b ha hb hab
    rcases hab with h1 | ⟨_, h2⟩
    · rw [hid a ha, hid b hb] at h1
      exact absurd h1 (lt_irrefl eid)
    · exact h2
  exact hpt.chain'

theorem groupRec_chain_lt (l : List GeoArg) :
    ∀ (eid : Int) (acc : List GeoArg),
      List.Chain' (fun a b : Int => a ≤ b) (eid :: l.map GeoArg.edge_id) →
      List.Chain' (fun a b : Int => a < b) ((groupRec eid acc l).map GeoArgPath.edge_id) := by
  induction l with
  | nil => intro eid acc _; simp [groupRec]
  | cons e rest ih =>
    intro eid acc h
    simp only [List.map_cons] at h
    rw [List.chain'_cons] at h
    obtain ⟨hle, htail⟩ := h
    by_cases heq : eid = e.edge_id
    · rw [groupRec, if_neg (by simpa using heq)]
      exact ih eid (acc ++ [e]) (by rw [heq]; exact htail)
    · rw [groupRec, if_pos (by simpa using heq)]
      simp only [List.map_cons]
      rw [List.chain'_cons']
      constructor
      · intro y hy
        rw [groupRec_head] at hy
        have hyy : y = e.edge_id := by
          have := hy
          simp at this
          exact this.symm
        rw [hyy]
        exact lt_of_le_of_ne hle heq
      · exact ih e.edge_id [e] htail

theorem groupRec_entries_inv (l : List GeoArg) :
    ∀ (eid : Int) (acc : List GeoArg), acc ≠ [] → (∀ a ∈ acc, a.edge_id = eid) →
      ∀ p ∈ groupRec eid acc l, p.entries ≠ [] ∧ ∀ a ∈ p.entries, a.edge_id = p.edge_id := by
  induction l with
  | nil =>
    intro eid acc hne hid p hp
    simp only [groupRec, List.mem_singleton] at hp
    subst hp
    exact ⟨hne, hid⟩
  | cons e rest ih =>
    intro eid acc hne hid p hp
    by_cases heq : eid = e.edge_id
    · rw [groupRec, if_neg (by simpa using heq)] at hp
      refine ih eid (acc ++ [e]) (by simp) ?_ p hp
      intro a ha
      rcases List.mem_append.mp ha with h1 | h1
      · exact hid a h1
      · rw [List.mem_singleton.mp h1]
        exact heq.symm
    · rw [groupRec, if_pos (by simpa using heq)] at hp
      rcases List.mem_cons.mp hp with h1 | h1
      · subst h1
        exact ⟨hne, hid⟩
      · refine ih e.edge_id [e] (by simp) ?_ p h1
        intro a ha
        rw [List.mem_singleton.mp ha]

theorem groupRec_time_sorted (l : List GeoArg) :
    ∀ (eid : Int) (acc : List GeoArg), (∀ a ∈ acc, a.edge_id = eid) →
      List.Chain' lexLe (acc ++ l) →
      ∀ p ∈ groupRec eid acc l, List.Chain' (fun a b : GeoArg => a.time ≤ b.time) p.entries := by
  induction l with
  | nil =>
    intro eid acc hid h p hp
    simp only [groupRec, List.mem_singleton] at hp
    subst hp
    exact chain_time_of_chain_lex acc eid hid (by simpa using h)
  | cons e rest ih =>
    intro eid acc hid h p hp
    by_cases heq : eid = e.edge_id
    · rw [groupRec, if_neg (by simpa using heq)] at hp
      refine ih eid (acc ++ [e]) ?_ ?_ p hp
      · intro a ha
        rcases List.mem_append.mp ha with h1 | h1
        · exact hid a h1
        · rw [List.mem_singleton.mp h1]
          exact heq.symm
      · rw [List.append_assoc]
        simpa using h
    · rw [groupRec, if_pos (by simpa using heq)] at hp
      rcases List.mem_cons.mp hp with h1 | h1
      · subst h1
        exact chain_time_of_chain_lex acc eid hid (List.chain'_append.mp h).1
      · refine ih e.edge_id [e] (by simp) ?_ p h1
        have := (List.chain'_append.mp h).2.1
        simpa using this

/-! ## Properties of groupPaths -/

theorem groupPaths_mem_edge (rows : List GeoArg) (x : Int) :
    x ∈ (groupPaths rows).map GeoArgPath.edge_id ↔ x ∈ rows.map GeoArg.edge_id := by
  cases rows with
  | nil => simp [groupPaths_nil]
  | cons e l =>
    rw [groupPaths_cons, groupRec_mem_edge]
    simp

theorem groupPaths_flatten (rows : List GeoArg) :
    ((groupPaths rows).map GeoArgPath.entries).flatten = rows := by
  cases rows with
  | nil => simp [groupPaths_nil]
  | cons e l =>
    rw [groupPaths_cons, groupRec_flatten]
    simp

theorem groupPaths_chain_lt (rows : List GeoArg)
    (h : List.Chain' (fun a b : Int => a ≤ b) (rows.map GeoArg.edge_id)) :
    List.Chain' (fun a b : Int => a < b) ((groupPaths rows).map GeoArgPath.edge_id) := by
  cases rows with
  | nil => simp [groupPaths_nil]
  | cons e l =>
    rw [groupPaths_cons]
    exact groupRec_chain_lt l e.edge_id [e] (by simpa using h)

theorem groupPaths_nodup_edge (rows : List GeoArg)
    (h : List.Chain' (fun a b : Int => a ≤ b) (rows.map GeoArg.edge_id)) :
    ((groupPaths rows).map GeoArgPath.edge_id).Nodup := by
  have hp : ((groupPaths rows).map GeoArgPath.edge_id).Pairwise (fun a b : Int => a < b) :=
    List.chain'_iff_pairwise.mp (groupPaths_chain_lt rows h)
  exact hp.imp (fun hab => ne_of_lt hab)

theorem groupPaths_time_sorted (rows : List GeoArg) (h : List.Chain' lexLe rows) :
    ∀ p ∈ groupPaths rows, List.Chain' (fun a b : GeoArg => a.time ≤ b.time) p.entries := by
  cases rows with
  | nil => simp [groupPaths_nil]
  | cons e l =>
    rw [groupPaths_cons]
    exact groupRec_time_sorted l e.edge_id [e] (by simp) (by simpa using h)

theorem groupPaths_entries_inv (rows : List GeoArg) :
    ∀ p ∈ groupPaths rows, p.entries ≠ [] ∧ ∀ a ∈ p.entries, a.edge_id = p.edge_id := by
  cases rows with
  | nil => simp [groupPaths_nil]
  | cons e l =>
    rw [groupPaths_cons]
    exact groupRec_entries_inv l e.edge_id [e] (by simp) (by simp)

theorem pairwise_lex_chain_le (rows : List GeoArg) (h : rows.Pairwise lexLe) :
    List.Chain' (fun a b : Int => a ≤ b) (rows.map GeoArg.edge_id) := by
  have hp : (rows.map GeoArg.edge_id).Pairwise (fun a b : Int => a ≤ b) := by
    rw [List.pairwise_map]
    refine h.imp ?_
    intro a b hab
    rcases hab with h1 | ⟨h1, _⟩
    · exact le_of_lt h1
    · exact le_of_eq h1
  exact hp.chain'

theorem originRows_pairwise (db : List GeoArg) (c : Int) :
    (originRows db c).Pairwise lexLe := by
  rw [originRows]
  exact List.sorted_insertionSort lexLe _

theorem attachmentsForEdges_pairwise (db : List GeoArg) (eids : Finset Int) :
    (attachmentsForEdges db eids).Pairwise lexLe := by
  rw [attachmentsForEdges]
  exact List.sorted_insertionSort lexLe _

/-! ## Properties of the node_tree fixpoint -/

theorem subset_treeStep (es : List Edge) (s : Finset Int) : s ⊆ treeStep es s := by
  rw [treeStep]
  exact Finset.subset_union_left

theorem seeds_subset_iterate (es : List Edge) (seeds : Finset Int) :
    ∀ k : ℕ, seeds ⊆ (treeStep es)^[k] seeds := by
  intro k
  induction k with
  | zero => simp
  | succ k ih =>
    rw [Function.iterate_succ_apply']
    exact ih.trans (subset_treeStep es _)

theorem iterate_subset_bound (es : List Edge) (seeds : Finset Int) :
    ∀ k : ℕ, (treeStep es)^[k] seeds ⊆ seeds ∪ (es.map Edge.parent).toFinset := by
  intro k
  induction k with
  | zero => simp [Finset.subset_union_left]
  | succ k ih =>
    rw [Function.iterate_succ_apply', treeStep]
    intro x hx
    rcases Finset.mem_union.mp hx with h | h
    · exact ih h
    · rcases List.mem_map.mp (List.mem_toFinset.mp h) with ⟨e, he, hpar⟩
      have hees : e ∈ es := (List.mem_filter.mp he).1
      exact Finset.mem_union_right _ (List.mem_toFinset.mpr (List.mem_map.mpr ⟨e, hees, hpar⟩))

theorem iterate_card_le (es : List Edge) (seeds : Finset Int) (k : ℕ) :
    ((treeStep es)^[k] seeds).card ≤ seeds.card + es.length := by
  refine (Finset.card_le_card (iterate_subset_bound es seeds k)).trans ?_
  refine (Finset.card_union_le _ _).trans ?_
  have h1 := List.toFinset_card_le (es.map Edge.parent)
  rw [List.length_map] at h1
  omega

theorem treeStep_nodeTree (es : List Edge) (seeds : Finset Int) :
    treeStep es (nodeTree es seeds) = nodeTree es seeds := by
  have key : ∀ k : ℕ,
      (∃ j, j ≤ k ∧ treeStep es ((treeStep es)^[j] seeds) = (treeStep es)^[j] seeds) ∨
      seeds.card + k ≤ ((treeStep es)^[k] seeds).card := by
    intro k
    induction k with
    | zero => right; simp
    | succ k ih =>
      rcases ih with ⟨j, hj, hfix⟩ | hc
      · exact Or.inl ⟨j, Nat.le_succ_of_le hj, hfix⟩
      · by_cases hfix : treeStep es ((treeStep es)^[k] seeds) = (treeStep es)^[k] seeds
        · exact Or.inl ⟨k, Nat.le_succ k, hfix⟩
        · right
          have hss : (treeStep es)^[k] seeds ⊂ (treeStep es)^[k + 1] seeds := by
            rw [Function.iterate_succ_apply']
            exact Finset.ssubset_iff_subset_ne.mpr ⟨subset_treeStep es _, fun h => hfix h.symm⟩
          have hcard := Finset.card_lt_card hss
          omega
  rcases key (es.length + 1) with ⟨j, hj, hfix⟩ | hc
  · have hrepr : es.length + 1 = (es.length + 1 - j) + j := by omega
    have heq : nodeTree es seeds = (treeStep es)^[j] seeds := by
      rw [nodeTree, hrepr, Function.iterate_add_apply, Function.iterate_fixed hfix]
    rw [heq, hfix]
  · exfalso
    have := iterate_card_le es seeds (es.length + 1)
    omega

theorem mem_iterate_reaches (es : List Edge) (seeds : Finset Int) :
    ∀ (k : ℕ) (x : Int), x ∈ (treeStep es)^[k] seeds → reachesAncestor es seeds x := by
  intro k
  induction k with
  | zero =>
    intro x hx
    exact ⟨x, by simpa using hx, Relation.ReflTransGen.refl⟩
  | succ k ih =>
    intro x hx
    rw [Function.iterate_succ_apply', treeStep] at hx
    rcases Finset.mem_union.mp hx with h | h
    · exact ih x h
    · rcases List.mem_map.mp (List.mem_toFinset.mp h) with ⟨e, he, hpar⟩
      obtain ⟨hees, hchild⟩ := List.mem_filter.mp he
      have hchild2 : e.child ∈ (treeStep es)^[k] seeds := by simpa using hchild
      rcases ih e.child hchild2 with ⟨s, hs, hr⟩
      exact ⟨s, hs, hr.tail ⟨e, hees, rfl, hpar⟩⟩

theorem mem_nodeTree_iff (es : List Edge) (seeds : Finset Int) (x : Int) :
    x ∈ nodeTree es seeds ↔ reachesAncestor es seeds x := by
  constructor
  · exact mem_iterate_reaches es seeds (es.length + 1) x
  · rintro ⟨s, hs, hr⟩
    induction hr with
    | refl => exact seeds_subset_iterate es seeds (es.length + 1) hs
    | tail hab hbc ih =>
      rcases hbc with ⟨e, hees, hchild, hparent⟩
      rw [← treeStep_nodeTree es seeds, treeStep]
      refine Finset.mem_union_right _ (List.mem_toFinset.mpr (List.mem_map.mpr ⟨e, ?_, hparent⟩))
      refine List.mem_filter.mpr ⟨hees, ?_⟩
      simp only [decide_eq_true_eq, hchild]
      exact ih

theorem rtg_mem_nodeTree (es : List Edge) (s x : Int)
    (h : Relation.ReflTransGen (parentStep es) s x) : x ∈ nodeTree es {s} :=
  (mem_nodeTree_iff es {s} x).mpr ⟨s, Finset.mem_singleton_self s, h⟩

theorem treeStep_empty (es : List Edge) : treeStep es ∅ = ∅ := by
  rw [treeStep]
  have h : es.filter (fun e => decide (e.child ∈ (∅ : Finset Int))) = [] := by
    simp
  rw [h]
  simp

theorem nodeTree_empty (es : List Edge) (seeds : Finset Int) (h : seeds = ∅) :
    nodeTree es seeds = ∅ := by
  rw [nodeTree, h]
  exact Function.iterate_fixed (treeStep_empty es) _

/-! ## Claim theorems -/

/-- Claim C2: for every attachment sequence pre-sorted by (edge id, time), the
grouping loop produces exactly one path per distinct edge id of the input (the
output edge ids are pairwise distinct and are exactly the input edge ids), each
path keeps its entries in input order (the concatenation of all path entries in
output order is the input itself), and the entry counts over all paths sum to
the input length. -/
theorem grouping_correct (rows : List GeoArg) (hs : rows.Pairwise lexLe) :
    ((groupPaths rows).map GeoArgPath.edge_id).Nodup ∧
    (∀ x : Int, x ∈ (groupPaths rows).map GeoArgPath.edge_id ↔ x ∈ rows.map GeoArg.edge_id) ∧
    ((groupPaths rows).map GeoArgPath.entries).flatten = rows ∧
    ((groupPaths rows).map (fun p => p.entries.length)).sum = rows.length := by
  refine ⟨groupPaths_nodup_edge rows (pairwise_lex_chain_le rows hs),
    fun x => groupPaths_mem_edge rows x, groupPaths_flatten rows, ?_⟩
  have h1 : ((groupPaths rows).map (fun p => p.entries.length)) =
      ((groupPaths rows).map GeoArgPath.entries).map List.length := by
    rw [List.map_map]
    rfl
  rw [h1, ← List.length_flatten, groupPaths_flatten]

/-- Witness for C2 at a concrete sorted sequence of three rows over two edges. -/
theorem grouping_correct_witness :
    ((groupPaths c2rows).map GeoArgPath.edge_id).Nodup ∧
    (∀ x : Int, x ∈ (groupPaths c2rows).map GeoArgPath.edge_id ↔ x ∈ c2rows.map GeoArg.edge_id) ∧
    ((groupPaths c2rows).map GeoArgPath.entries).flatten = c2rows ∧
    ((groupPaths c2rows).map (fun p => p.entries.length)).sum = c2rows.length :=
  grouping_correct c2rows (by decide)

/-- Claim C10: every path emitted by the grouping loop, on any input sequence
sorted or not, has a nonempty entries list whose rows all carry the edge id of
the path. -/
theorem path_entries_inv (rows : List GeoArg) (p : GeoArgPath) (hp : p ∈ groupPaths rows) :
    p.entries ≠ [] ∧ ∀ a ∈ p.entries, a.edge_id = p.edge_id :=
  groupPaths_entries_inv rows p hp

/-- Witness for C10 on an unsorted input whose first flushed path keeps edge 2. -/
theorem path_entries_inv_witness :
    (⟨2, [⟨2, 7, 1⟩]⟩ : GeoArgPath) ∈ groupPaths c10rows ∧
    ((⟨2, [⟨2, 7, 1⟩]⟩ : GeoArgPath).entries ≠ [] ∧
      ∀ a ∈ (⟨2, [⟨2, 7, 1⟩]⟩ : GeoArgPath).entries,
        a.edge_id = (⟨2, [⟨2, 7, 1⟩]⟩ : GeoArgPath).edge_id) :=
  ⟨by decide, path_entries_inv c10rows _ (by decide)⟩

/-- Claim C9 (amended): within every path returned by either resolver query the
entries are ordered by time ascending, equal consecutive times allowed; the
original strict form fails, see the counterexample. -/
theorem paths_time_sorted :
    (∀ (db : List GeoArg) (c : Int), ∀ p ∈ get_origin_paths db c,
        List.Chain' (fun a b : GeoArg => a.time ≤ b.time) p.entries) ∧
    (∀ (nt : List Node) (es : List Edge) (inds : List Individual) (db : List GeoArg)
        (iid : Int), ∀ p ∈ get_individual_origin_paths nt es inds db iid,
        List.Chain' (fun a b : GeoArg => a.time ≤ b.time) p.entries) := by
  constructor
  · intro db c p hp
    rw [get_origin_paths] at hp
    exact groupPaths_time_sorted _ (originRows_pairwise db c).chain' p hp
  · intro nt es inds db iid p hp
    rw [get_individual_origin_paths] at hp
    by_cases h : ancestorEdgeIds nt es inds iid = ∅
    · rw [if_pos h] at hp
      exact absurd hp (List.not_mem_nil p)
    · rw [if_neg h] at hp
      exact groupPaths_time_sorted _ (attachmentsForEdges_pairwise db _).chain' p hp

/-- Witness for C9 on a two-row table resolved into a single path. -/
theorem paths_time_sorted_witness :
    (⟨1, [⟨1, 5, 0⟩, ⟨1, 6, 0⟩]⟩ : GeoArgPath) ∈ get_origin_paths c9db 5 ∧
    List.Chain' (fun a b : GeoArg => a.time ≤ b.time)
      (⟨1, [⟨1, 5, 0⟩, ⟨1, 6, 0⟩]⟩ : GeoArgPath).entries :=
  ⟨by decide, paths_time_sorted.1 c9db 5 _ (by decide)⟩

/-- Counterexample for C9 as stated: the resolved path of c9db holds two
consecutive entries with the same time, so strict time ascent fails. -/
theorem paths_time_sorted_cex :
    ¬ (∀ p ∈ get_origin_paths c9db 5,
        List.Chain' (fun a b : GeoArg => a.time < b.time) p.entries) := by
  intro h
  have h1 : (⟨1, [⟨1, 5, 0⟩, ⟨1, 6, 0⟩]⟩ : GeoArgPath) ∈ get_origin_paths c9db 5 := by decide
  have h2 := h _ h1
  rw [show (⟨1, [⟨1, 5, 0⟩, ⟨1, 6, 0⟩]⟩ : GeoArgPath).entries =
      [⟨1, 5, 0⟩, ⟨1, 6, 0⟩] from rfl, List.chain'_cons] at h2
  have h3 : (0 : ℚ) < 0 := h2.1
  exact absurd h3 (lt_irrefl 0)

/-- Claim C8: an individual with no associated nodes yields an empty path list;
an empty resolved edge set short-circuits to the empty list whatever the
geo_arg table holds; and fetching attachments for an empty edge set yields the
empty sequence. -/
theorem empty_input_paths (nt : List Node) (es : List Edge) (inds : List Individual)
    (db : List GeoArg) (iid : Int) :
    (unnestNodes inds iid = [] → get_individual_origin_paths nt es inds db iid = []) ∧
    (ancestorEdgeIds nt es inds iid = ∅ → get_individual_origin_paths nt es inds db iid = []) ∧
    attachmentsForEdges db ∅ = [] := by
  have h3 : attachmentsForEdges db ∅ = [] := by
    rw [attachmentsForEdges]
    have hf : db.filter (fun g => decide (g.edge_id ∈ (∅ : Finset Int))) = [] := by simp
    rw [hf]
    rfl
  have h2 : ancestorEdgeIds nt es inds iid = ∅ →
      get_individual_origin_paths nt es inds db iid = [] := by
    intro h
    rw [get_individual_origin_paths, if_pos h]
  refine ⟨?_, h2, h3⟩
  intro h
  apply h2
  have hseeds : seedNodes nt inds iid = ∅ := by
    rw [seedNodes]
    simp [h]
  have htree : nodeTree es (seedNodes nt inds iid) = ∅ := nodeTree_empty es _ hseeds
  rw [ancestorEdgeIds]
  simp [htree]

/-- Witness for C8 on empty tables and an unknown individual id. -/
theorem empty_input_paths_witness :
    unnestNodes ([] : List Individual) 7 = [] ∧
    get_individual_origin_paths [] [] [] [] 7 = [] ∧
    attachmentsForEdges ([] : List GeoArg) ∅ = [] :=
  ⟨by decide, (empty_input_paths [] [] [] [] 7).1 (by decide),
    (empty_input_paths [] [] [] [] 7).2.2⟩

/-- Counterexample for C4 as stated: a failed store round trip produces exactly
the same output as a successful round trip over no rows, so the failure is not
propagated as an error and is indistinguishable from absent data. -/
theorem store_failure_cex :
    origin_paths_handler (Except.error SqlxError.connectionFailed) =
      origin_paths_handler (Except.ok []) ∧
    origin_paths_handler (Except.error SqlxError.connectionFailed) = [] :=
  ⟨rfl, rfl⟩

/-- Claim C4 (amended): every handler converts a store failure into the empty
result through unwrap_or_default; no error reaches the caller. -/
theorem store_failure_amended (err : SqlxError) :
    origin_paths_handler (Except.error err) = [] ∧
    (∀ g : Except SqlxError (List GeoArg), individual_paths_handler (Except.error err) g = []) ∧
    average_flux_handler (Except.error err) = [] :=
  ⟨rfl, fun _ => rfl, rfl⟩

/-- Claim C6: for every edge table and seed set, cyclic ones included, the
node_tree iteration reaches its fixpoint, the visited node set stays within the
finite bound given by the seeds and the edge parents, the resolved edge set is
bounded by the table length, and a concrete two-node cycle is traversed to the
finite set holding exactly its two nodes. -/
theorem closure_cycle_safe (es : List Edge) (seeds : Finset Int) :
    treeStep es (nodeTree es seeds) = nodeTree es seeds ∧
    (nodeTree es seeds).card ≤ seeds.card + es.length ∧
    (∀ (nt : List Node) (inds : List Individual) (iid : Int),
      (ancestorEdgeIds nt es inds iid).card ≤ es.length) ∧
    nodeTree c6cyc {1} = {1, 2} := by
  refine ⟨treeStep_nodeTree es seeds, ?_, ?_, by decide⟩
  · rw [nodeTree]
    exact iterate_card_le es seeds (es.length + 1)
  · intro nt inds iid
    rw [ancestorEdgeIds]
    refine (List.toFinset_card_le _).trans ?_
    rw [List.length_map]
    exact List.length_filter_le _ _

/-- Counterexample for C1 as stated: edge 1 has its minimum-time attachment at
cell 2 and only a later attachment at cell 5, yet the origin query for cell 5
returns a path for edge 1; the spec-side earliest-cell filter would return no
edge at all. -/
theorem origin_filter_cex :
    minTimeAttachment c1db 1 = some ⟨1, 2, 0⟩ ∧
    edgesWithEarliestCell c1db 5 = [] ∧
    (get_origin_paths c1db 5).map GeoArgPath.edge_id = [1] :=
  ⟨by decide, by decide, by decide⟩

/-- Claim C1 (amended): provided at most 1000 distinct edges have an attachment
at the cell, an edge contributes a path to the origin query result exactly when
it has some attachment at that cell, regardless of where its minimum-time
attachment sits. -/
theorem origin_filter_amended (db : List GeoArg) (c e : Int)
    (hcap : (distinctFirst ((db.filter (fun g => g.state_id = c)).map GeoArg.edge_id)).length
      ≤ 1000) :
    ((∃ p ∈ get_origin_paths db c, p.edge_id = e) ↔ ∃ g ∈ db, g.edge_id = e ∧ g.state_id = c) := by
  have h1 : (∃ p ∈ get_origin_paths db c, p.edge_id = e) ↔
      e ∈ (get_origin_paths db c).map GeoArgPath.edge_id := List.mem_map.symm
  rw [h1]
  simp only [get_origin_paths]
  rw [groupPaths_mem_edge]
  have hperm : (originRows db c).Perm (db.filter (fun g => g.edge_id ∈ originEdges db c)) := by
    rw [originRows]
    exact List.perm_insertionSort lexLe _
  rw [List.Perm.mem_iff (hperm.map GeoArg.edge_id)]
  have htake : originEdges db c =
      distinctFirst ((db.filter (fun g => g.state_id = c)).map GeoArg.edge_id) := by
    rw [originEdges]
    exact List.take_of_length_le hcap
  constructor
  · intro hmem
    rcases List.mem_map.mp hmem with ⟨g, hg, hge⟩
    obtain ⟨hgdb, hpred⟩ := List.mem_filter.mp hg
    rw [decide_eq_true_eq, htake, mem_distinctFirst] at hpred
    rcases List.mem_map.mp hpred with ⟨g2, hg2, hg2e⟩
    obtain ⟨hg2db, hg2state⟩ := List.mem_filter.mp hg2
    refine ⟨g2, hg2db, by rw [hg2e, hge], by simpa using hg2state⟩
  · rintro ⟨g, hgdb, hge, hgstate⟩
    refine List.mem_map.mpr ⟨g, List.mem_filter.mpr ⟨hgdb, ?_⟩, hge⟩
    rw [decide_eq_true_eq, htake, mem_distinctFirst]
    exact List.mem_map.mpr ⟨g, List.mem_filter.mpr ⟨hgdb, by simpa using hgstate⟩, rfl⟩

/-- Witness for C1 on a one-row table qualifying edge 1 at cell 5. -/
theorem origin_filter_amended_witness :
    (distinctFirst ((([⟨1, 5, 0⟩] : List GeoArg).filter
        (fun g => g.state_id = 5)).map GeoArg.edge_id)).length ≤ 1000 ∧
    ((∃ p ∈ get_origin_paths [⟨1, 5, 0⟩] 5, p.edge_id = 1) ↔
      ∃ g ∈ ([⟨1, 5, 0⟩] : List GeoArg), g.edge_id = 1 ∧ g.state_id = 5) :=
  ⟨by decide, origin_filter_amended [⟨1, 5, 0⟩] 5 1 (by decide)⟩

/-- Counterexample for C3 as stated: in the acyclic graph where node 2 is the
parent of nodes 1 and 3, the resolver seeded at node 1 (individual 7) returns
edge 101 from node 2 down to node 3, although that edge lies on no parent-path
from node 1; the closure query keeps every edge touching the visited set, not
only the edges of parent-paths. -/
theorem ancestor_edges_cex :
    acyclicEdges c3edges ∧
    seedNodes c3nodes c3inds 7 = {1} ∧
    (101 : Int) ∈ ancestorEdgeIds c3nodes c3edges c3inds 7 ∧
    ¬ onParentPathFrom c3edges 1 ⟨101, 2, 3⟩ := by
  refine ⟨?_, by decide, by decide, ?_⟩
  · intro e he hr
    have hmem := rtg_mem_nodeTree c3edges e.parent e.child hr
    rcases List.mem_cons.mp he with h1 | h1
    · subst h1
      revert hmem
      decide
    · rcases List.mem_cons.mp h1 with h2 | h2
      · subst h2
        revert hmem
        decide
      · exact absurd h2 (List.not_mem_nil e)
  · rintro ⟨_, hr⟩
    have hmem := rtg_mem_nodeTree c3edges 1 (Edge.child ⟨101, 2, 3⟩) hr
    revert hmem
    decide

/-- Claim C3 (amended): the resolved edge-id set of an individual consists of
exactly the edges with an endpoint, child or parent, in the ancestor closure of
the seed nodes, the closure being the nodes reachable from some seed by
repeatedly following child-to-parent links; edges that merely touch the
closure, such as edges to siblings or descendants of an ancestor, are included
alongside the edges of parent-paths. -/
theorem ancestor_edges_amended (nt : List Node) (es : List Edge) (inds : List Individual)
    (iid : Int) (x : Int) :
    x ∈ ancestorEdgeIds nt es inds iid ↔
      ∃ e ∈ es, e.id = x ∧
        (reachesAncestor es (seedNodes nt inds iid) e.child ∨
         reachesAncestor es (seedNodes nt inds iid) e.parent) := by
  rw [ancestorEdgeIds]
  rw [List.mem_toFinset]
  constructor
  · intro h
    rcases List.mem_map.mp h with ⟨e, he, hid⟩
    obtain ⟨hees, hpred⟩ := List.mem_filter.mp he
    rw [decide_eq_true_eq] at hpred
    refine ⟨e, hees, hid, ?_⟩
    rcases hpred with h1 | h1
    · exact Or.inl ((mem_nodeTree_iff es _ e.child).mp h1)
    · exact Or.inr ((mem_nodeTree_iff es _ e.parent).mp h1)
  · rintro ⟨e, hees, hid, hreach⟩
    refine List.mem_map.mpr ⟨e, List.mem_filter.mpr ⟨hees, ?_⟩, hid⟩
    rw [decide_eq_true_eq]
    rcases hreach with h1 | h1
    · exact Or.inl ((mem_nodeTree_iff es _ e.child).mpr h1)
    · exact Or.inr ((mem_nodeTree_iff es _ e.parent).mpr h1)

/-! ## Properties of the flux aggregation -/

theorem mem_fluxKeys (fs : List Flux) (k : Int × Int) :
    k ∈ List.insertionSort keyLe
        ((distinctFirst (fs.map fluxKey)).filter (fun j => 0 < avgRate fs j)) ↔
      k ∈ fs.map fluxKey ∧ 0 < avgRate fs k := by
  rw [List.Perm.mem_iff (List.perm_insertionSort keyLe _), List.mem_filter, mem_distinctFirst]
  simp

theorem mem_get_average_flux (fs : List Flux) (af : AverageFlux) :
    af ∈ get_average_flux fs ↔
      averageFluxKey af ∈ fs.map fluxKey ∧
      af.average_migration_rate = avgRate fs (averageFluxKey af) ∧
      0 < avgRate fs (averageFluxKey af) := by
  rw [get_average_flux, List.mem_map]
  constructor
  · rintro ⟨k, hk, hmk⟩
    rw [mem_fluxKeys] at hk
    have hkey : averageFluxKey af = k := by
      rw [← hmk]
      simp [averageFluxKey]
    obtain ⟨h1, h2⟩ := hk
    refine ⟨by rw [hkey]; exact h1, ?_, by rw [hkey]; exact h2⟩
    rw [hkey, ← hmk]
  · rintro ⟨h1, h2, h3⟩
    refine ⟨averageFluxKey af, ?_, ?_⟩
    · rw [mem_fluxKeys]
      exact ⟨h1, h3⟩
    · cases af with
      | mk s t r =>
        simp only [averageFluxKey] at h2 ⊢
        rw [h2]

theorem get_average_flux_sorted (fs : List Flux) :
    ((get_average_flux fs).map averageFluxKey).Pairwise keyLt := by
  rw [get_average_flux, List.map_map]
  have hcomp : (averageFluxKey ∘ fun k : Int × Int => (⟨k.1, k.2, avgRate fs k⟩ : AverageFlux)) =
      fun k : Int × Int => k := by
    funext k
    simp [averageFluxKey]
  rw [hcomp, List.map_id']
  have hle : (List.insertionSort keyLe
      ((distinctFirst (fs.map fluxKey)).filter (fun j => 0 < avgRate fs j))).Pairwise keyLe :=
    List.sorted_insertionSort keyLe _
  have hnd : (List.insertionSort keyLe
      ((distinctFirst (fs.map fluxKey)).filter (fun j => 0 < avgRate fs j))).Nodup := by
    rw [List.Perm.nodup_iff (List.perm_insertionSort keyLe _)]
    exact (distinctFirst_nodup _).filter _
  refine (hle.and hnd).imp ?_
  rintro a b ⟨hab, hne⟩
  rcases hab with h1 | ⟨h1, h2⟩
  · exact Or.inl h1
  · refine Or.inr ⟨h1, lt_of_le_of_ne h2 ?_⟩
    intro h2e
    exact hne (Prod.ext h1 h2e)

theorem get_average_flux_c5 : get_average_flux c5flux = [⟨1, 2, 4⟩] := by
  have hd : distinctFirst (c5flux.map fluxKey) = [(1, 2)] := by decide
  have hrates : ratesFor c5flux (1, 2) = [2, 4, 6] := by decide
  have havg : avgRate c5flux (1, 2) = 4 := by
    rw [avgRate, hrates]
    simp [List.sum_cons, List.sum_nil]
    norm_num
  rw [get_average_flux, hd]
  have hfilter : ([((1 : Int), (2 : Int))]).filter (fun k => 0 < avgRate c5flux k) = [(1, 2)] := by
    simp only [List.filter, havg]
    norm_num
  rw [hfilter]
  rw [show List.insertionSort keyLe [((1 : Int), (2 : Int))] = [(1, 2)] from rfl]
  simp [havg]

/-- Claim C5: the flux aggregation returns, for each (source, target) pair
occurring in the input, exactly one tuple whose rate is the arithmetic mean of
the rates recorded for that pair; only pairs with strictly positive mean are
kept; the output keys ascend strictly in (source, target) order; and the pair
(1, 2) with rates 2, 4 and 6 yields exactly the tuple (1, 2, 4). -/
theorem average_flux_correct :
    (∀ (fs : List Flux) (af : AverageFlux),
        af ∈ get_average_flux fs ↔
          averageFluxKey af ∈ fs.map fluxKey ∧
          af.average_migration_rate = avgRate fs (averageFluxKey af) ∧
          0 < avgRate fs (averageFluxKey af)) ∧
    (∀ fs : List Flux, ((get_average_flux fs).map averageFluxKey).Pairwise keyLt) ∧
    get_average_flux c5flux = [⟨1, 2, 4⟩] :=
  ⟨fun fs af => mem_get_average_flux fs af, fun fs => get_average_flux_sorted fs,
    get_average_flux_c5⟩

/-! ## Properties of the LIMIT 1000 truncation -/

theorem nodup_cast_range (n : ℕ) : ((List.range n).map (fun i : ℕ => (i : Int))).Nodup :=
  (List.nodup_range n).map (fun _ _ h => Nat.cast_injective h)

theorem mem_cast_range (n i : ℕ) :
    ((i : Int) ∈ (List.range n).map (fun j : ℕ => (j : Int))) ↔ i < n := by
  constructor
  · intro h
    rcases List.mem_map.mp h with ⟨j, hj, hcast⟩
    have hji : j = i := by exact_mod_cast hcast
    exact hji ▸ List.mem_range.mp hj
  · intro h
    exact List.mem_map.mpr ⟨i, List.mem_range.mpr h, rfl⟩

theorem filter_state_geoRow (n : ℕ) :
    ((List.range n).map geoRow).filter (fun g => g.state_id = 5) =
      (List.range n).map geoRow := by
  rw [List.filter_eq_self]
  intro g hg
  rcases List.mem_map.mp hg with ⟨i, _, rfl⟩
  simp [geoRow]

theorem map_edge_geoRow (n : ℕ) :
    ((List.range n).map geoRow).map GeoArg.edge_id =
      (List.range n).map (fun i : ℕ => (i : Int)) := by
  rw [List.map_map]
  rfl

theorem origin_edges_geoRow_big :
    originEdges bigDb 5 = (List.range 1000).map (fun i : ℕ => (i : Int)) := by
  rw [originEdges, show bigDb = (List.range 1001).map geoRow from rfl, filter_state_geoRow,
    map_edge_geoRow, distinctFirst_eq_self (nodup_cast_range 1001), ← List.map_take,
    List.take_range]
  norm_num

theorem origin_edges_geoRow_small :
    originEdges smallDb 5 = (List.range 1000).map (fun i : ℕ => (i : Int)) := by
  rw [originEdges, show smallDb = (List.range 1000).map geoRow from rfl, filter_state_geoRow,
    map_edge_geoRow, distinctFirst_eq_self (nodup_cast_range 1000)]
  apply List.take_of_length_le
  simp

theorem filter_comp_geoRow_self (l : List ℕ) (p : GeoArg → Bool)
    (hp : ∀ i ∈ l, p (geoRow i) = true) : l.filter (p ∘ geoRow) = l := by
  rw [List.filter_eq_self]
  intro i hi
  simpa [Function.comp] using hp i hi

theorem rows_filter_big :
    bigDb.filter (fun g => g.edge_id ∈ originEdges bigDb 5) =
      (List.range 1000).map geoRow := by
  rw [origin_edges_geoRow_big, show bigDb = (List.range 1001).map geoRow from rfl,
    List.filter_map]
  have hsplit : List.range 1001 = List.range 1000 ++ [1000] := List.range_succ 1000
  rw [hsplit, List.filter_append]
  have hleft : (List.range 1000).filter
      ((fun g => decide (g.edge_id ∈ (List.range 1000).map (fun j : ℕ => (j : Int)))) ∘ geoRow) =
      List.range 1000 := by
    apply filter_comp_geoRow_self
    intro i hi
    simp only [geoRow, decide_eq_true_eq]
    exact (mem_cast_range 1000 i).mpr (List.mem_range.mp hi)
  have hright : ([1000] : List ℕ).filter
      ((fun g => decide (g.edge_id ∈ (List.range 1000).map (fun j : ℕ => (j : Int)))) ∘ geoRow) =
      [] := by
    rw [List.filter_eq_nil_iff]
    intro i hi
    rw [List.mem_singleton.mp hi]
    simp only [Function.comp_apply, geoRow, decide_eq_true_eq, mem_cast_range]
    norm_num
  rw [hleft, hright, List.append_nil]

theorem rows_filter_small :
    smallDb.filter (fun g => g.edge_id ∈ originEdges smallDb 5) =
      (List.range 1000).map geoRow := by
  rw [origin_edges_geoRow_small, show smallDb = (List.range 1000).map geoRow from rfl,
    List.filter_map]
  have hf : (List.range 1000).filter
      ((fun g => decide (g.edge_id ∈ (List.range 1000).map (fun j : ℕ => (j : Int)))) ∘ geoRow) =
      List.range 1000 := by
    apply filter_comp_geoRow_self
    intro i hi
    simp only [geoRow, decide_eq_true_eq]
    exact (mem_cast_range 1000 i).mpr (List.mem_range.mp hi)
  rw [hf]

/-- Counterexample for C7 as stated: the big table has 1001 distinct qualifying
edges, hitting the LIMIT 1000 cap, yet the query result is literally the same
list of paths as for the 1000-edge table; the operation reports nothing
distinguishable about truncation, its result type being a plain list. -/
theorem origin_truncation_cex :
    1000 < (distinctFirst ((bigDb.filter (fun g => g.state_id = 5)).map GeoArg.edge_id)).length ∧
    get_origin_paths bigDb 5 = get_origin_paths smallDb 5 := by
  constructor
  · rw [show bigDb = (List.range 1001).map geoRow from rfl, filter_state_geoRow,
      map_edge_geoRow, distinctFirst_eq_self (nodup_cast_range 1001)]
    simp only [List.length_map, List.length_range]
    norm_num
  · simp only [get_origin_paths, originRows]
    rw [rows_filter_big, rows_filter_small]

/-- Claim C7 (amended): the origin query truncates silently: it never returns
more than 1000 paths, whatever the table holds, and exposes no distinct
truncated condition to the caller. -/
theorem origin_truncation_amended (db : List GeoArg) (c : Int) :
    (get_origin_paths db c).length ≤ 1000 := by
  have hnd : ((get_origin_paths db c).map GeoArgPath.edge_id).Nodup := by
    rw [get_origin_paths]
    exact groupPaths_nodup_edge _ (pairwise_lex_chain_le _ (originRows_pairwise db c))
  have hsub : ((get_origin_paths db c).map GeoArgPath.edge_id) ⊆ originEdges db c := by
    intro x hx
    rw [get_origin_paths, groupPaths_mem_edge] at hx
    have hperm : (originRows db c).Perm (db.filter (fun g => g.edge_id ∈ originEdges db c)) := by
      rw [originRows]
      exact List.perm_insertionSort lexLe _
    have hx2 := (List.Perm.mem_iff (hperm.map GeoArg.edge_id)).mp hx
    rcases List.mem_map.mp hx2 with ⟨g, hg, hge⟩
    obtain ⟨_, hpred⟩ := List.mem_filter.mp hg
    rw [decide_eq_true_eq] at hpred
    exact hge ▸ hpred
  have hle := (hnd.subperm hsub).length_le
  rw [List.length_map] at hle
  refine hle.trans ?_
  rw [originEdges]
  exact List.length_take_le _ _
